import Mathlib

/-!
Verification of the Habit-Tracker core (`HabitTrackerApp.py`): the `Habit`
entity (checkoff, current_streak, longest_streak, to_dict/from_dict) and the
`HabitTracker` aggregate (add_habit, delete_habit, checkoff_habit,
get_habits_by_periodicity, habits_struggled_last_month).

Modelling conventions:
* A calendar date (`datetime.date`) is an `Int`: its ordinal day number.
  Subtracting two dates yields the day delta, as `(d1 - d2).days` does.
* A `datetime.datetime` is a `DateTime`: an ordinal date plus a time-of-day
  rank.  `.date()` projects the date component.  `isoformat` /
  `fromisoformat` are mutually inverse on datetimes, so serialization is
  modelled as carrying the `DateTime` value itself.
* Python objects are mutable and compared by identity (Habit defines no
  `__eq__`).  The tracker is therefore modelled with an explicit store:
  every `Habit()` allocation gets a fresh `Nat` id, the store (`heap`) maps
  ids to the object's current field values, the name dict maps names to
  ids, and the periodicity buckets hold ids.
* `dict` is an insertion-ordered association list whose assignment
  overwrites in place; `defaultdict(list)` additionally materialises an
  empty bucket at the end on a missing-key read.
* Clock reads (`datetime.date.today()`, `datetime.datetime.now()`) become
  explicit parameters `today : Int` and `now : DateTime`.
-/

/-! ## Definitions: the embedded program -/

/-- A `datetime.datetime`: `date` is the calendar-date ordinal
(`.date()` in the source), `time` ranks the moment within its day. -/
structure DateTime where
  date : Int
  time : Nat
deriving DecidableEq, Repr

/-- Chronological order on moments: earlier day, or same day and
not-later time-of-day. -/
def DateTime.le (a b : DateTime) : Prop :=
  a.date < b.date ∨ (a.date = b.date ∧ a.time ≤ b.time)

instance (a b : DateTime) : Decidable (DateTime.le a b) := by
  unfold DateTime.le; infer_instance

/-- The `Habit` entity's fields (`Habit.__init__`):
`checkoffs` is the ordered timestamp history, `streak` the running counter,
`last_checkoff_date` the calendar date of the most recent checkoff
(`None` → `none`). -/
structure Habit where
  name : String
  periodicity : Int
  created_at : DateTime
  checkoffs : List DateTime
  streak : Nat
  last_checkoff_date : Option Int
deriving DecidableEq, Repr

/-- Constructor `Habit(name, periodicity, created_at)`: empty history, zero streak,
no last checkoff date. -/
def Habit.make (name : String) (periodicity : Int) (created_at : DateTime) : Habit :=
  { name := name, periodicity := periodicity, created_at := created_at,
    checkoffs := [], streak := 0, last_checkoff_date := none }

/-- Method `Habit.checkoff`: if a last checkoff date exists and
`today - last_checkoff_date > periodicity`, reset `streak` to 0; then append
`now` to `checkoffs`, set `last_checkoff_date := today`, increment `streak`. -/
def Habit.checkoff (h : Habit) (today : Int) (now : DateTime) : Habit :=
  let streak0 : Nat :=
    match h.last_checkoff_date with
    | some d => if today - d > h.periodicity then 0 else h.streak
    | none => h.streak
  { h with checkoffs := h.checkoffs ++ [now],
           last_checkoff_date := some today,
           streak := streak0 + 1 }

/-- Method `Habit.current_streak`: the stored `streak` if the last checkoff date
exists and `today - last_checkoff_date <= periodicity`, else 0. -/
def Habit.current_streak (h : Habit) (today : Int) : Nat :=
  match h.last_checkoff_date with
  | some d => if today - d ≤ h.periodicity then h.streak else 0
  | none => 0

/-- The loop body of `Habit.longest_streak`, fused with the trailing
`streaks.append(current_streak)`: walking the remaining checkoffs with
`prev` the previous element and `cur` the running counter, it returns the
`streaks` list the Python loop builds (final run included). -/
def streaksList (p : Int) : DateTime → List DateTime → Nat → List Nat
  | _, [], cur => [cur]
  | prev, c :: cs, cur =>
    if c.date - prev.date ≤ p then streaksList p c cs (cur + 1)
    else cur :: streaksList p c cs 1

/-- Python `max(streaks)` over a list of naturals (all entries of `streaks` are
at least 1, so folding from 0 agrees with Python's `max`). -/
def maxNat (l : List Nat) : Nat := l.foldl max 0

/-- Method `Habit.longest_streak`: 0 on an empty history, otherwise the maximum
entry of the `streaks` list built by the pairwise walk. -/
def Habit.longest_streak (h : Habit) : Nat :=
  match h.checkoffs with
  | [] => 0
  | c :: rest => maxNat (streaksList h.periodicity c rest 1)

/-- The record produced by `Habit.to_dict` / consumed by `Habit.from_dict`
(ISO-8601 round-tripping is the identity on the modelled values; `streak`
and `last_checkoff_date` are absent). -/
structure HabitRecord where
  name : String
  periodicity : Int
  created_at : DateTime
  checkoffs : List DateTime
deriving DecidableEq, Repr

/-- Method `Habit.to_dict`. -/
def Habit.to_dict (h : Habit) : HabitRecord :=
  { name := h.name, periodicity := h.periodicity,
    created_at := h.created_at, checkoffs := h.checkoffs }

/-- Method `Habit.from_dict`: rebuild via the constructor, restore `checkoffs`,
and set `last_checkoff_date` to the final checkoff's calendar date when the
history is non-empty.  `streak` keeps its constructor default 0. -/
def Habit.from_dict (d : HabitRecord) : Habit :=
  let habit := Habit.make d.name d.periodicity d.created_at
  let habit := { habit with checkoffs := d.checkoffs }
  match d.checkoffs.getLast? with
  | some c => { habit with last_checkoff_date := some c.date }
  | none => habit

/-- Modelled from the spec's algorithm description for `longest_streak`, on
calendar dates: extend a running counter while the gap between consecutive
dates is at most `p`, close the run and restart at 1 when it exceeds `p`,
and close the final run after the walk. -/
def specRuns (p : Int) : Int → List Int → Nat → List Nat
  | _, [], cur => [cur]
  | prev, d :: ds, cur =>
    if d - prev ≤ p then specRuns p d ds (cur + 1)
    else cur :: specRuns p d ds 1

/-- Modelled from the spec: the maximum run length of the date-level walk,
0 for an empty date list. -/
def specLongest (p : Int) : List Int → Nat
  | [] => 0
  | d :: ds => maxNat (specRuns p d ds 1)

/-- Midnight of day 0. -/
def t0 : DateTime := ⟨0, 0⟩

/-- A habit name used in concrete instances. -/
def nmA : String := "a"

/-- The spec's worked example: periodicity 1, checkoffs on 2023-07-01, 02,
03, 05, 06, 07 (dates as day-of-July ordinals; only deltas matter). -/
def hJuly : Habit :=
  { name := nmA, periodicity := 1, created_at := t0,
    checkoffs := [⟨1, 0⟩, ⟨2, 0⟩, ⟨3, 0⟩, ⟨5, 0⟩, ⟨6, 0⟩, ⟨7, 0⟩],
    streak := 0, last_checkoff_date := some 7 }

/-- A habit one checkoff after creation, at day 0 (`streak = 1`). -/
def hC1 : Habit := Habit.checkoff (Habit.make nmA 1 t0) 0 t0

/-- A habit with `streak = 5` and last checkoff date day 0. -/
def hC3 : Habit :=
  { name := nmA, periodicity := 1, created_at := t0,
    checkoffs := [t0], streak := 5, last_checkoff_date := some 0 }

/-- The streak value the `checkoff` lapse rule maintains while walking a
date list: restart at 1 after a gap exceeding `p`, else count on. -/
def trailRun (p : Int) : Int → List Int → Nat → Nat
  | _, [], cur => cur
  | prev, d :: ds, cur =>
    if d - prev ≤ p then trailRun p d ds (cur + 1) else trailRun p d ds 1

/-- Length of the trailing run of a date list (0 when empty). -/
def tRun (p : Int) : List Int → Nat
  | [] => 0
  | d :: ds => trailRun p d ds 1

/-- The last element of `prev :: ds`. -/
def lastD : Int → List Int → Int
  | prev, [] => prev
  | _, d :: ds => lastD d ds

/-- A habit state reachable from a fresh `Habit(...)` by `checkoff` calls
under a consistent clock (`datetime.now()` lies on `date.today()`'s day)
checking off in non-decreasing time order. -/
inductive Reach : Habit → Prop where
  | base (name : String) (p : Int) (created : DateTime) :
      Reach (Habit.make name p created)
  | step (h : Habit) (today : Int) (now : DateTime) :
      Reach h → now.date = today →
      (∀ c ∈ h.checkoffs, DateTime.le c now) →
      Reach (h.checkoff today now)

/-- The checkoff-maintained state: `last_checkoff_date` is the calendar
date of the final checkoff, and the raw streak is bounded by the trailing
run of the checkoff dates. -/
def StreakInv (h : Habit) : Prop :=
  h.last_checkoff_date = (h.checkoffs.map DateTime.date).getLast? ∧
  h.streak ≤ tRun h.periodicity (h.checkoffs.map DateTime.date)

/-- Dict lookup `d[k]`: first entry with the key. -/
def dictFind {α β : Type} [DecidableEq α] : List (α × β) → α → Option β
  | [], _ => none
  | (k', v) :: rest, k => if k' = k then some v else dictFind rest k

/-- Dict assignment `d[k] = v`: overwrite in place if the key exists, else append. -/
def dictSet {α β : Type} [DecidableEq α] : List (α × β) → α → β → List (α × β)
  | [], k, v => [(k, v)]
  | (k', v') :: rest, k, v =>
    if k' = k then (k, v) :: rest else (k', v') :: dictSet rest k v

/-- Dict removal `d.pop(k)`: drop the entry with the key. -/
def dictDrop {α β : Type} [DecidableEq α] : List (α × β) → α → List (α × β)
  | [], _ => []
  | (k', v') :: rest, k =>
    if k' = k then rest else (k', v') :: dictDrop rest k

/-- Mutate the object stored under a key in place. -/
def dictModify {α β : Type} [DecidableEq α] : List (α × β) → α → (β → β) → List (α × β)
  | [], _, _ => []
  | (k', v) :: rest, k, f =>
    if k' = k then (k', f v) :: rest else (k', v) :: dictModify rest k f

/-- Python `list.remove(a)`: drop the first element equal to `a`
(on an absent element Python raises `ValueError`; every call site below is
reachable only with the element present). -/
def removeFirst {α : Type} [DecidableEq α] : List α → α → List α
  | [], _ => []
  | x :: xs, a => if x = a then xs else x :: removeFirst xs a

/-- Defaultdict append `d[p].append(h)` — append to the bucket,
materialising an empty bucket at the end first when the key is absent. -/
def ddAppend : List (Int × List Nat) → Int → Nat → List (Int × List Nat)
  | [], p, id => [(p, [id])]
  | (q, b) :: rest, p, id =>
    if q = p then (q, b ++ [id]) :: rest else (q, b) :: ddAppend rest p id

/-- Defaultdict removal `d[p].remove(h)` — remove from the bucket,
materialising an empty bucket at the end first when the key is absent
(Python would then raise inside `remove`; unreachable in reachable states). -/
def ddRemove : List (Int × List Nat) → Int → Nat → List (Int × List Nat)
  | [], p, _ => [(p, [])]
  | (q, b) :: rest, p, id =>
    if q = p then (q, removeFirst b id) :: rest else (q, b) :: ddRemove rest p id

/-- The `HabitTracker` state: the allocation counter and store plus the
two indexes of `HabitTracker.__init__` (`habits` maps names to object ids,
`habits_by_periodicity` buckets object ids by periodicity). -/
structure HabitTracker where
  nextId : Nat
  heap : List (Nat × Habit)
  habits : List (String × Nat)
  habits_by_periodicity : List (Int × List Nat)
deriving DecidableEq, Repr

/-- Constructor `HabitTracker()`. -/
def HabitTracker.empty : HabitTracker := ⟨0, [], [], []⟩

/-- Method `HabitTracker.add_habit`: allocate `Habit(name, periodicity)` (with
`created_at = now`), bind the name to it (silently overwriting), and append
it to its periodicity bucket. -/
def HabitTracker.add_habit (t : HabitTracker) (name : String) (p : Int)
    (now : DateTime) : HabitTracker :=
  { nextId := t.nextId + 1,
    heap := t.heap ++ [(t.nextId, Habit.make name p now)],
    habits := dictSet t.habits name t.nextId,
    habits_by_periodicity := ddAppend t.habits_by_periodicity p t.nextId }

/-- Method `HabitTracker.delete_habit`: if the name is bound, pop it and remove
the popped object from its periodicity bucket; otherwise no-op.  (The inner
`none` branch is unreachable: every id in the name dict is allocated.) -/
def HabitTracker.delete_habit (t : HabitTracker) (name : String) : HabitTracker :=
  match dictFind t.habits name with
  | none => t
  | some id =>
    match dictFind t.heap id with
    | none => t
    | some h =>
      { t with habits := dictDrop t.habits name,
               habits_by_periodicity := ddRemove t.habits_by_periodicity h.periodicity id }

/-- Method `HabitTracker.checkoff_habit`: delegate to the named object's
`checkoff`; if the name is unbound, print a message and change nothing. -/
def HabitTracker.checkoff_habit (t : HabitTracker) (name : String)
    (today : Int) (now : DateTime) : HabitTracker :=
  match dictFind t.habits name with
  | some id =>
    { t with heap := dictModify t.heap id (Habit.checkoff · today now) }
  | none => t

/-- Method `HabitTracker.get_habits_by_periodicity`: the defaultdict read returns
the existing bucket, or materialises (and returns) a fresh empty bucket. -/
def HabitTracker.get_habits_by_periodicity (t : HabitTracker) (p : Int) :
    List Nat × HabitTracker :=
  match dictFind t.habits_by_periodicity p with
  | some b => (b, t)
  | none =>
    ([], { t with habits_by_periodicity := t.habits_by_periodicity ++ [(p, [])] })

/-- Python `self.habits.values()` as objects: name-dict order, ids resolved
through the store (every bound id is allocated, so nothing is skipped). -/
def HabitTracker.habitsValues (t : HabitTracker) : List Habit :=
  t.habits.filterMap (fun x => dictFind t.heap x.2)

/-- The struggling test of `habits_struggled_last_month`:
`not habit.checkoffs or habit.checkoffs[-1].date() < today - 30 days`. -/
def struggledB (today : Int) (h : Habit) : Bool :=
  h.checkoffs.isEmpty ||
    (match h.checkoffs.getLast? with
     | some c => decide (c.date < today - 30)
     | none => false)

/-- Method `HabitTracker.habits_struggled_last_month`: collect the names of the
struggling habits in name-dict order. -/
def HabitTracker.habits_struggled_last_month (t : HabitTracker) (today : Int) :
    List String :=
  t.habitsValues.foldl
    (fun acc h => if struggledB today h then acc ++ [h.name] else acc) []

/-- A public tracker operation with its clock inputs. -/
inductive Op where
  | add (name : String) (p : Int) (now : DateTime)
  | del (name : String)
  | check (name : String) (today : Int) (now : DateTime)
deriving DecidableEq, Repr

def applyOp (t : HabitTracker) : Op → HabitTracker
  | Op.add name p now => t.add_habit name p now
  | Op.del name => t.delete_habit name
  | Op.check name today now => t.checkoff_habit name today now

def runOps (t : HabitTracker) : List Op → HabitTracker
  | [] => t
  | op :: ops => runOps (applyOp t op) ops

/-- An `add_habit` whose name is not currently bound (no silent
overwrite); deletes and checkoffs are unrestricted. -/
def freshOp (t : HabitTracker) : Op → Bool
  | Op.add name _ _ => (dictFind t.habits name).isNone
  | _ => true

def freshRun (t : HabitTracker) : List Op → Bool
  | [] => true
  | op :: ops => freshOp t op && freshRun (applyOp t op) ops

/-- The keys of an association list. -/
def keysOf {α β : Type} (l : List (α × β)) : List α := l.map Prod.fst

/-- The ids bound in the name dict. -/
def mapIds (t : HabitTracker) : List Nat := t.habits.map Prod.snd

/-- The union (as a list) of all periodicity buckets. -/
def bucketAll (t : HabitTracker) : List Nat :=
  (t.habits_by_periodicity.map Prod.snd).flatten

/-- The tracker's structural invariant: unique keys everywhere, unique ids
in the name dict, bucket contents matching the name dict exactly, every
bucketed id resolving to an object of that bucket's periodicity, and every
stored id below the allocation counter. -/
structure TrackerInv (t : HabitTracker) : Prop where
  habitsKeysNodup : (keysOf t.habits).Nodup
  mapIdsNodup : (mapIds t).Nodup
  bucketKeysNodup : (keysOf t.habits_by_periodicity).Nodup
  heapKeysNodup : (keysOf t.heap).Nodup
  bucketAllNodup : (bucketAll t).Nodup
  memIff : ∀ id, id ∈ bucketAll t ↔ id ∈ mapIds t
  bucketPeriod : ∀ x ∈ t.habits_by_periodicity, ∀ id ∈ x.2,
    (dictFind t.heap id).map Habit.periodicity = some x.1
  heapBound : ∀ k ∈ keysOf t.heap, k < t.nextId

/-- Two `add_habit` calls with the same name. -/
def opsDup : List Op := [Op.add nmA 1 t0, Op.add nmA 1 t0]

/-- A fresh-name operation sequence: add, check off, delete, re-add. -/
def opsW : List Op :=
  [Op.add nmA 1 t0, Op.check nmA 0 t0, Op.del nmA, Op.add nmA 2 t0]

/-- The empty tracker after one `add_habit` (periodicity 1). -/
def tA : HabitTracker := HabitTracker.empty.add_habit nmA 1 t0

/-! ## Theorems -/

theorem streaksList_eq_specRuns (p : Int) (cs : List DateTime) :
    ∀ prev cur, streaksList p prev cs cur =
      specRuns p prev.date (cs.map DateTime.date) cur := by
  induction cs with
  | nil => intro prev cur; rfl
  | cons c cs ih =>
    intro prev cur
    simp only [streaksList, specRuns, List.map_cons]
    by_cases hgap : c.date - prev.date ≤ p
    · rw [if_pos hgap, if_pos hgap, ih]
    · rw [if_neg hgap, if_neg hgap, ih]

/-- C3: `checkoff` always succeeds; it appends the new timestamp, sets
`last_checkoff_date` to today, resets the streak to 0 before incrementing
when a previous checkoff date exists and the day delta exceeds the
periodicity, keeps it when the delta is at most the periodicity (equality
included), and in every case increments the streak by exactly 1. -/
theorem checkoff_spec (h : Habit) (today : Int) (now : DateTime) :
    (h.checkoff today now).checkoffs = h.checkoffs ++ [now] ∧
    (h.checkoff today now).last_checkoff_date = some today ∧
    (∀ d, h.last_checkoff_date = some d → today - d > h.periodicity →
      (h.checkoff today now).streak = 0 + 1) ∧
    (∀ d, h.last_checkoff_date = some d → today - d ≤ h.periodicity →
      (h.checkoff today now).streak = h.streak + 1) ∧
    (h.last_checkoff_date = none →
      (h.checkoff today now).streak = h.streak + 1) := by
  refine ⟨rfl, rfl, ?_, ?_, ?_⟩
  · intro d hd hgt
    simp [Habit.checkoff, hd, hgt]
  · intro d hd hle
    simp [Habit.checkoff, hd, not_lt.mpr hle]
  · intro hnone
    simp [Habit.checkoff, hnone]

/-- Witness for C3 at a concrete lapsed habit: day delta 3 exceeds
periodicity 1, so the incremented streak is 1. -/
theorem checkoff_spec_witness : (hC3.checkoff 3 ⟨3, 1⟩).streak = 0 + 1 :=
  (checkoff_spec hC3 3 ⟨3, 1⟩).2.2.1 0 rfl (by decide)

/-- C5: `current_streak` returns the stored streak when the last checkoff
date exists and the day delta is at most the periodicity, and 0 when the
delta exceeds it or no checkoff date exists; being a pure function of the
habit and the day, it mutates nothing. -/
theorem current_streak_spec (h : Habit) (today : Int) :
    (∀ d, h.last_checkoff_date = some d → today - d ≤ h.periodicity →
      h.current_streak today = h.streak) ∧
    (∀ d, h.last_checkoff_date = some d → today - d > h.periodicity →
      h.current_streak today = 0) ∧
    (h.last_checkoff_date = none → h.current_streak today = 0) := by
  refine ⟨?_, ?_, ?_⟩
  · intro d hd hle
    simp [Habit.current_streak, hd, hle]
  · intro d hd hgt
    simp [Habit.current_streak, hd, not_le.mpr hgt]
  · intro hnone
    simp [Habit.current_streak, hnone]

/-- Witness for C5 at a concrete live habit: delta 1 ≤ periodicity 1
returns the stored streak 5. -/
theorem current_streak_spec_witness : hC3.current_streak 1 = hC3.streak :=
  (current_streak_spec hC3 1).1 0 rfl (by decide)

/-- C4: `longest_streak` equals the spec's date-level walk (maximum run
length over calendar-date gaps at most the periodicity); it is 0 on an
empty history, 1 on a single checkoff, and 3 on the worked example
(periodicity 1, dates July 1, 2, 3, 5, 6, 7). -/
theorem longest_streak_spec (h : Habit) :
    h.longest_streak = specLongest h.periodicity (h.checkoffs.map DateTime.date) ∧
    (h.checkoffs = [] → h.longest_streak = 0) ∧
    (∀ c, h.checkoffs = [c] → h.longest_streak = 1) ∧
    hJuly.longest_streak = 3 := by
  refine ⟨?_, ?_, ?_, by decide⟩
  · cases hc : h.checkoffs with
    | nil => simp [Habit.longest_streak, specLongest, hc]
    | cons c rest =>
      simp [Habit.longest_streak, specLongest, hc, streaksList_eq_specRuns]
  · intro hc
    simp [Habit.longest_streak, hc]
  · intro c hc
    simp [Habit.longest_streak, hc, streaksList, maxNat]

/-- Witness for C4 at a concrete single-checkoff habit. -/
theorem longest_streak_spec_witness : hC1.longest_streak = 1 :=
  (longest_streak_spec hC1).2.2.1 t0 rfl

/-- The value of `longest_streak` depends only on the checkoff history and the
periodicity. -/
theorem longest_streak_congr (h1 h2 : Habit)
    (hc : h1.checkoffs = h2.checkoffs) (hp : h1.periodicity = h2.periodicity) :
    h1.longest_streak = h2.longest_streak := by
  unfold Habit.longest_streak
  rw [hc, hp]

/-- Saving then loading rewrites exactly the `streak` field (to 0) and the
`last_checkoff_date` field (to the final checkoff's calendar date). -/
theorem reload_fields (h : Habit) :
    Habit.from_dict h.to_dict =
      { h with streak := 0,
               last_checkoff_date := h.checkoffs.getLast?.map DateTime.date } := by
  cases hc : h.checkoffs.getLast? <;>
    simp [Habit.from_dict, Habit.to_dict, Habit.make, hc]

/-- A habit whose raw streak is 0 has `current_streak` 0 at every day. -/
theorem current_streak_of_streak_zero (h : Habit) (today : Int)
    (hs : h.streak = 0) : h.current_streak today = 0 := by
  unfold Habit.current_streak
  cases h.last_checkoff_date with
  | none => rfl
  | some d => simp [hs]

/-- C1 counterexample: a habit checked off once today has
`current_streak = 1`, but after save-and-reload the raw streak is reset to
0 and `current_streak` of the reloaded habit is 0, so the roundtrip does
not preserve `current_streak`. -/
theorem reload_cex :
    ¬ ((Habit.from_dict hC1.to_dict).current_streak 0 = hC1.current_streak 0) := by
  decide

/-- C1 (amended): the roundtrip preserves `name`, `periodicity`,
`created_at`, `checkoffs` and hence `longest_streak`, reconstructs
`last_checkoff_date` as the final checkoff's calendar date (none when the
history is empty), and resets the raw streak to 0 — so `current_streak` of
the reloaded habit is 0 at every day, not in general the original value. -/
theorem reload_roundtrip (h : Habit) (today : Int) :
    (Habit.from_dict h.to_dict).name = h.name ∧
    (Habit.from_dict h.to_dict).periodicity = h.periodicity ∧
    (Habit.from_dict h.to_dict).created_at = h.created_at ∧
    (Habit.from_dict h.to_dict).checkoffs = h.checkoffs ∧
    (∀ c, h.checkoffs.getLast? = some c →
      (Habit.from_dict h.to_dict).last_checkoff_date = some c.date) ∧
    (h.checkoffs = [] → (Habit.from_dict h.to_dict).last_checkoff_date = none) ∧
    (Habit.from_dict h.to_dict).streak = 0 ∧
    (Habit.from_dict h.to_dict).longest_streak = h.longest_streak ∧
    (Habit.from_dict h.to_dict).current_streak today = 0 := by
  rw [reload_fields]
  refine ⟨rfl, rfl, rfl, rfl, ?_, ?_, rfl, ?_, ?_⟩
  · intro c hc
    simp [hc]
  · intro hnil
    simp [hnil]
  · exact longest_streak_congr _ _ rfl rfl
  · exact current_streak_of_streak_zero _ _ rfl

/-- Witness for C1 (amended) at the single-checkoff habit `hC1`. -/
theorem reload_roundtrip_witness :
    (Habit.from_dict hC1.to_dict).last_checkoff_date = some t0.date ∧
    (Habit.from_dict hC1.to_dict).current_streak 0 = 0 :=
  ⟨(reload_roundtrip hC1 0).2.2.2.2.1 t0 (by decide),
   (reload_roundtrip hC1 0).2.2.2.2.2.2.2.2⟩

theorem lastD_eq_getLast (ds : List Int) :
    ∀ d0, (d0 :: ds).getLast? = some (lastD d0 ds) := by
  induction ds with
  | nil => intro d0; rfl
  | cons d ds ih =>
    intro d0
    rw [List.getLast?_cons_cons, ih d]
    rfl

theorem foldlMax_mono (l : List Nat) :
    ∀ a b, a ≤ b → l.foldl max a ≤ l.foldl max b := by
  induction l with
  | nil => intro a b hab; exact hab
  | cons x xs ih => intro a b hab; exact ih _ _ (max_le_max hab le_rfl)

theorem trailRun_le_maxNat (p : Int) (ds : List Int) :
    ∀ prev cur, trailRun p prev ds cur ≤ maxNat (specRuns p prev ds cur) := by
  induction ds with
  | nil =>
    intro prev cur
    simp [trailRun, specRuns, maxNat]
  | cons d ds ih =>
    intro prev cur
    simp only [trailRun, specRuns]
    by_cases hgap : d - prev ≤ p
    · rw [if_pos hgap, if_pos hgap]
      exact ih d (cur + 1)
    · rw [if_neg hgap, if_neg hgap]
      calc trailRun p d ds 1 ≤ maxNat (specRuns p d ds 1) := ih d 1
        _ ≤ maxNat (cur :: specRuns p d ds 1) := by
            simp only [maxNat, List.foldl_cons]
            exact foldlMax_mono _ 0 (max 0 cur) (Nat.zero_le _)

theorem trailRun_append (p : Int) (ds : List Int) (e : Int) :
    ∀ prev cur, trailRun p prev (ds ++ [e]) cur =
      if e - lastD prev ds ≤ p then trailRun p prev ds cur + 1 else 1 := by
  induction ds with
  | nil =>
    intro prev cur
    by_cases hgap : e - prev ≤ p
    · simp [trailRun, lastD, hgap]
    · simp [trailRun, lastD, hgap]
  | cons d ds ih =>
    intro prev cur
    rw [List.cons_append]
    show (if d - prev ≤ p then trailRun p d (ds ++ [e]) (cur + 1)
          else trailRun p d (ds ++ [e]) 1) =
      if e - lastD d ds ≤ p then
        (if d - prev ≤ p then trailRun p d ds (cur + 1) else trailRun p d ds 1) + 1
      else 1
    by_cases hgap : d - prev ≤ p
    · rw [if_pos hgap, ih d (cur + 1), if_pos hgap]
    · rw [if_neg hgap, ih d 1, if_neg hgap]

theorem tRun_append (p : Int) (d0 : Int) (ds : List Int) (e : Int) :
    tRun p ((d0 :: ds) ++ [e]) =
      if e - lastD d0 ds ≤ p then tRun p (d0 :: ds) + 1 else 1 := by
  simp only [tRun, List.cons_append]
  exact trailRun_append p ds e d0 1

theorem tRun_le_specLongest (p : Int) (ds : List Int) :
    tRun p ds ≤ specLongest p ds := by
  cases ds with
  | nil => exact le_rfl
  | cons d ds => exact trailRun_le_maxNat p ds d 1

/-- The value of `longest_streak` equals the spec's date-level walk. -/
theorem longest_eq_specLongest (h : Habit) :
    h.longest_streak = specLongest h.periodicity (h.checkoffs.map DateTime.date) := by
  cases hc : h.checkoffs with
  | nil => simp [Habit.longest_streak, specLongest, hc]
  | cons c rest =>
    simp [Habit.longest_streak, specLongest, hc, streaksList_eq_specRuns]

theorem streakInv_make (name : String) (p : Int) (created : DateTime) :
    StreakInv (Habit.make name p created) :=
  ⟨rfl, le_rfl⟩

theorem streakInv_checkoff (h : Habit) (today : Int) (now : DateTime)
    (hinv : StreakInv h) (hdate : now.date = today) :
    StreakInv (h.checkoff today now) := by
  obtain ⟨hlast, hstreak⟩ := hinv
  constructor
  · show some today = ((h.checkoffs ++ [now]).map DateTime.date).getLast?
    rw [List.map_append, List.map_cons, List.map_nil, List.getLast?_concat, hdate]
  · show (match h.last_checkoff_date with
      | some d => if today - d > h.periodicity then 0 else h.streak
      | none => h.streak) + 1 ≤
        tRun h.periodicity ((h.checkoffs ++ [now]).map DateTime.date)
    rw [List.map_append, List.map_cons, List.map_nil, hdate]
    cases hcs : h.checkoffs.map DateTime.date with
    | nil =>
      rw [hcs] at hlast hstreak
      rw [hlast]
      have hz : h.streak = 0 := Nat.le_zero.mp hstreak
      simp [hz, tRun, trailRun]
    | cons c cs =>
      rw [hcs] at hlast hstreak
      rw [hlast, lastD_eq_getLast cs c]
      show (if today - lastD c cs > h.periodicity then 0 else h.streak) + 1 ≤
        tRun h.periodicity ((c :: cs) ++ [today])
      rw [tRun_append]
      by_cases hgap : today - lastD c cs ≤ h.periodicity
      · rw [if_pos hgap, if_neg (not_lt.mpr hgap)]
        exact Nat.add_le_add_right hstreak 1
      · rw [if_neg hgap, if_pos (not_le.mp hgap)]

theorem reach_streakInv (h : Habit) (hr : Reach h) : StreakInv h := by
  induction hr with
  | base name p created => exact streakInv_make name p created
  | step h today now _ hdate _ ih => exact streakInv_checkoff h today now ih hdate

theorem current_streak_le_streak (h : Habit) (today : Int) :
    h.current_streak today ≤ h.streak := by
  unfold Habit.current_streak
  cases h.last_checkoff_date with
  | none => exact Nat.zero_le _
  | some d =>
    show (if today - d ≤ h.periodicity then h.streak else 0) ≤ h.streak
    by_cases hd : today - d ≤ h.periodicity
    · rw [if_pos hd]
    · rw [if_neg hd]; exact Nat.zero_le _

/-- C6: in every habit state reachable by `checkoff` calls from a fresh
habit (non-decreasing clock), `longest_streak` dominates `current_streak`
evaluated at any day. -/
theorem longest_ge_current (h : Habit) (hr : Reach h) (today : Int) :
    h.current_streak today ≤ h.longest_streak := by
  have hinv := reach_streakInv h hr
  calc h.current_streak today ≤ h.streak := current_streak_le_streak h today
    _ ≤ tRun h.periodicity (h.checkoffs.map DateTime.date) := hinv.2
    _ ≤ specLongest h.periodicity (h.checkoffs.map DateTime.date) :=
        tRun_le_specLongest _ _
    _ = h.longest_streak := (longest_eq_specLongest h).symm

/-- Witness for C6 at the concrete reachable habit `hC1`. -/
theorem longest_ge_current_witness : hC1.current_streak 0 ≤ hC1.longest_streak :=
  longest_ge_current hC1
    (Reach.step (Habit.make nmA 1 t0) 0 t0 (Reach.base nmA 1 t0) rfl (by decide)) 0

theorem nodup_concat {α : Type} (l : List α) (a : α) :
    (l ++ [a]).Nodup ↔ a ∉ l ∧ l.Nodup := by
  rw [List.Perm.nodup_iff (List.perm_append_singleton a l), List.nodup_cons]

theorem dictFind_eq_none_iff {α β : Type} [DecidableEq α]
    (l : List (α × β)) (k : α) : dictFind l k = none ↔ k ∉ keysOf l := by
  induction l with
  | nil => simp [dictFind, keysOf]
  | cons x rest ih =>
    obtain ⟨k', v⟩ := x
    by_cases hk : k' = k
    · subst hk; simp [dictFind, keysOf]
    · simp [dictFind, keysOf, hk, ih, Ne.symm hk]

theorem dictFind_mem {α β : Type} [DecidableEq α] {l : List (α × β)}
    {k : α} {v : β} (h : dictFind l k = some v) : (k, v) ∈ l := by
  induction l with
  | nil => cases h
  | cons x rest ih =>
    obtain ⟨k', v'⟩ := x
    by_cases hk : k' = k
    · subst hk
      simp [dictFind] at h
      simp [h]
    · simp [dictFind, hk] at h
      exact List.mem_cons_of_mem _ (ih h)

theorem dictFind_of_nodup {α β : Type} [DecidableEq α] {l : List (α × β)}
    {k : α} {v : β} (hnd : (keysOf l).Nodup) (hmem : (k, v) ∈ l) :
    dictFind l k = some v := by
  induction l with
  | nil => cases hmem
  | cons x rest ih =>
    obtain ⟨k', v'⟩ := x
    rw [keysOf, List.map_cons, List.nodup_cons] at hnd
    rw [List.mem_cons] at hmem
    cases hmem with
    | inl heq =>
      obtain ⟨hk, hv⟩ := Prod.mk.injEq .. ▸ heq
      subst hk; subst hv
      simp [dictFind]
    | inr hmem =>
      by_cases hk : k' = k
      · subst hk
        exact absurd (List.mem_map_of_mem Prod.fst hmem) hnd.1
      · simp only [dictFind, if_neg hk]
        exact ih hnd.2 hmem

theorem dictFind_append_some {α β : Type} [DecidableEq α] {l : List (α × β)}
    (l' : List (α × β)) {k : α} {v : β} (h : dictFind l k = some v) :
    dictFind (l ++ l') k = some v := by
  induction l with
  | nil => cases h
  | cons x rest ih =>
    obtain ⟨k', v'⟩ := x
    by_cases hk : k' = k
    · simp only [dictFind, if_pos hk] at h
      simp only [List.cons_append, dictFind, if_pos hk, h]
    · simp only [dictFind, if_neg hk] at h
      simp only [List.cons_append, dictFind, if_neg hk]
      exact ih h

theorem dictFind_append_none {α β : Type} [DecidableEq α] {l : List (α × β)}
    (l' : List (α × β)) {k : α} (h : dictFind l k = none) :
    dictFind (l ++ l') k = dictFind l' k := by
  induction l with
  | nil => rfl
  | cons x rest ih =>
    obtain ⟨k', v'⟩ := x
    by_cases hk : k' = k
    · simp [dictFind, hk] at h
    · simp only [dictFind, if_neg hk] at h
      simp only [List.cons_append, dictFind, if_neg hk]
      exact ih h

theorem dictSet_of_fresh {α β : Type} [DecidableEq α] {l : List (α × β)}
    {k : α} (v : β) (h : dictFind l k = none) :
    dictSet l k v = l ++ [(k, v)] := by
  induction l with
  | nil => rfl
  | cons x rest ih =>
    obtain ⟨k', v'⟩ := x
    by_cases hk : k' = k
    · simp [dictFind, hk] at h
    · simp only [dictFind, if_neg hk] at h
      simp only [dictSet, if_neg hk, List.cons_append, List.cons.injEq, true_and]
      exact ih h

theorem dictDrop_split {α β : Type} [DecidableEq α] {l : List (α × β)}
    {k : α} {v : β} (h : dictFind l k = some v) :
    ∃ l1 l2, l = l1 ++ (k, v) :: l2 ∧ k ∉ keysOf l1 ∧ dictDrop l k = l1 ++ l2 := by
  induction l with
  | nil => cases h
  | cons x rest ih =>
    obtain ⟨k', v'⟩ := x
    by_cases hk : k' = k
    · subst hk
      have hv : v' = v := by simpa [dictFind] using h
      subst hv
      exact ⟨[], rest, rfl, by simp [keysOf], by simp [dictDrop]⟩
    · simp only [dictFind, if_neg hk] at h
      obtain ⟨l1, l2, heq, hk1, hdrop⟩ := ih h
      refine ⟨(k', v') :: l1, l2, by rw [heq]; rfl, ?_, ?_⟩
      · simp only [keysOf, List.map_cons, List.mem_cons]
        rintro (hkk | hkk)
        · exact hk hkk.symm
        · exact hk1 hkk
      · simp only [dictDrop, if_neg hk, List.cons_append, List.cons.injEq, true_and]
        exact hdrop

theorem dictModify_keys {α β : Type} [DecidableEq α]
    (l : List (α × β)) (k : α) (f : β → β) :
    keysOf (dictModify l k f) = keysOf l := by
  induction l with
  | nil => rfl
  | cons x rest ih =>
    obtain ⟨k', v⟩ := x
    by_cases hk : k' = k
    · simp [dictModify, hk, keysOf]
    · simp only [dictModify, if_neg hk, keysOf, List.map_cons] at ih ⊢
      rw [ih]

theorem dictFind_dictModify_self {α β : Type} [DecidableEq α]
    (l : List (α × β)) (k : α) (f : β → β) :
    dictFind (dictModify l k f) k = (dictFind l k).map f := by
  induction l with
  | nil => rfl
  | cons x rest ih =>
    obtain ⟨k', v⟩ := x
    by_cases hk : k' = k
    · simp [dictModify, dictFind, hk]
    · simp only [dictModify, if_neg hk, dictFind]
      exact ih

theorem dictFind_dictModify_ne {α β : Type} [DecidableEq α]
    (l : List (α × β)) (k k' : α) (f : β → β) (hne : k' ≠ k) :
    dictFind (dictModify l k f) k' = dictFind l k' := by
  induction l with
  | nil => rfl
  | cons x rest ih =>
    obtain ⟨k0, v⟩ := x
    by_cases hk : k0 = k
    · subst hk
      have hne' : k0 ≠ k' := fun h => hne h.symm
      simp [dictModify, dictFind, hne']
    · simp only [dictModify, if_neg hk, dictFind]
      by_cases hk' : k0 = k'
      · simp [hk']
      · simp only [if_neg hk']
        exact ih

theorem removeFirst_subset {α : Type} [DecidableEq α] (l : List α) (a : α) :
    ∀ x ∈ removeFirst l a, x ∈ l := by
  induction l with
  | nil => intro x hx; cases hx
  | cons y ys ih =>
    intro x hx
    by_cases hy : y = a
    · simp only [removeFirst, if_pos hy] at hx
      exact List.mem_cons_of_mem _ hx
    · simp only [removeFirst, if_neg hy, List.mem_cons] at hx
      cases hx with
      | inl h => exact h ▸ List.mem_cons_self _ _
      | inr h => exact List.mem_cons_of_mem _ (ih x h)

theorem removeFirst_perm {α : Type} [DecidableEq α] {l : List α} {a : α}
    (h : a ∈ l) : l.Perm (a :: removeFirst l a) := by
  induction l with
  | nil => cases h
  | cons y ys ih =>
    by_cases hy : y = a
    · subst hy
      simp only [removeFirst, if_pos rfl]
      exact List.Perm.refl _
    · have h' : a ∈ ys := by
        rw [List.mem_cons] at h
        exact h.resolve_left fun heq => hy heq.symm
      simp only [removeFirst, if_neg hy]
      exact List.Perm.trans (List.Perm.cons y (ih h')) (List.Perm.swap a y _)

theorem ddAppend_keys (l : List (Int × List Nat)) (p : Int) (n : Nat) :
    keysOf (ddAppend l p n) =
      if p ∈ keysOf l then keysOf l else keysOf l ++ [p] := by
  induction l with
  | nil => simp [ddAppend, keysOf]
  | cons x rest ih =>
    obtain ⟨q, b⟩ := x
    by_cases hq : q = p
    · subst hq
      simp [ddAppend, keysOf]
    · simp only [ddAppend, if_neg hq, keysOf, List.map_cons] at ih ⊢
      rw [ih]
      by_cases hp : p ∈ List.map Prod.fst rest
      · simp [hp, List.mem_cons]
      · have hnp : ¬(p = q ∨ p ∈ List.map Prod.fst rest) := by
          rintro (h | h)
          · exact hq h.symm
          · exact hp h
        simp only [List.mem_cons, if_neg hp, if_neg hnp, List.cons_append]

theorem ddAppend_flatten_perm (l : List (Int × List Nat)) (p : Int) (n : Nat) :
    (List.map Prod.snd (ddAppend l p n)).flatten.Perm
      (n :: (List.map Prod.snd l).flatten) := by
  induction l with
  | nil => simp [ddAppend]
  | cons x rest ih =>
    obtain ⟨q, b⟩ := x
    by_cases hq : q = p
    · subst hq
      have hred : ddAppend ((q, b) :: rest) q n = (q, b ++ [n]) :: rest := by
        simp [ddAppend]
      rw [hred]
      simp only [List.map_cons, List.flatten_cons, List.append_assoc,
        List.singleton_append]
      exact List.perm_middle
    · have hred : ddAppend ((q, b) :: rest) p n = (q, b) :: ddAppend rest p n := by
        simp [ddAppend, hq]
      rw [hred]
      simp only [List.map_cons, List.flatten_cons]
      exact List.Perm.trans (List.Perm.append_left b ih) List.perm_middle

theorem ddAppend_cases (l : List (Int × List Nat)) (p : Int) (n : Nat) :
    ∀ x ∈ ddAppend l p n,
      x ∈ l ∨ ∃ b, ((p, b) ∈ l ∨ b = []) ∧ x = (p, b ++ [n]) := by
  induction l with
  | nil =>
    intro x hx
    simp only [ddAppend, List.mem_singleton] at hx
    exact Or.inr ⟨[], Or.inr rfl, by simp [hx]⟩
  | cons y rest ih =>
    obtain ⟨q, b0⟩ := y
    intro x hx
    by_cases hq : q = p
    · subst hq
      have hred : ddAppend ((q, b0) :: rest) q n = (q, b0 ++ [n]) :: rest := by
        simp [ddAppend]
      rw [hred, List.mem_cons] at hx
      cases hx with
      | inl h => exact Or.inr ⟨b0, Or.inl (List.mem_cons_self _ _), h⟩
      | inr h => exact Or.inl (List.mem_cons_of_mem _ h)
    · have hred : ddAppend ((q, b0) :: rest) p n = (q, b0) :: ddAppend rest p n := by
        simp [ddAppend, hq]
      rw [hred, List.mem_cons] at hx
      cases hx with
      | inl h => exact Or.inl (h ▸ List.mem_cons_self _ _)
      | inr h =>
        cases ih x h with
        | inl h' => exact Or.inl (List.mem_cons_of_mem _ h')
        | inr h' =>
          obtain ⟨b, hb, hx'⟩ := h'
          exact Or.inr ⟨b, hb.imp (List.mem_cons_of_mem _) (fun z => z), hx'⟩

theorem ddRemove_keys (l : List (Int × List Nat)) (p : Int) (n : Nat) :
    keysOf (ddRemove l p n) =
      if p ∈ keysOf l then keysOf l else keysOf l ++ [p] := by
  induction l with
  | nil => simp [ddRemove, keysOf]
  | cons x rest ih =>
    obtain ⟨q, b⟩ := x
    by_cases hq : q = p
    · subst hq
      simp [ddRemove, keysOf]
    · simp only [ddRemove, if_neg hq, keysOf, List.map_cons] at ih ⊢
      rw [ih]
      by_cases hp : p ∈ List.map Prod.fst rest
      · simp [hp, List.mem_cons]
      · have hnp : ¬(p = q ∨ p ∈ List.map Prod.fst rest) := by
          rintro (h | h)
          · exact hq h.symm
          · exact hp h
        simp only [List.mem_cons, if_neg hp, if_neg hnp, List.cons_append]

theorem ddRemove_cases (l : List (Int × List Nat)) (p : Int) (n : Nat) :
    ∀ x ∈ ddRemove l p n,
      x ∈ l ∨ ∃ b, ((p, b) ∈ l ∨ b = []) ∧ x = (p, removeFirst b n) := by
  induction l with
  | nil =>
    intro x hx
    simp only [ddRemove, List.mem_singleton] at hx
    exact Or.inr ⟨[], Or.inr rfl, by simp [hx, removeFirst]⟩
  | cons y rest ih =>
    obtain ⟨q, b0⟩ := y
    intro x hx
    by_cases hq : q = p
    · subst hq
      have hred : ddRemove ((q, b0) :: rest) q n = (q, removeFirst b0 n) :: rest := by
        simp [ddRemove]
      rw [hred, List.mem_cons] at hx
      cases hx with
      | inl h => exact Or.inr ⟨b0, Or.inl (List.mem_cons_self _ _), h⟩
      | inr h => exact Or.inl (List.mem_cons_of_mem _ h)
    · have hred : ddRemove ((q, b0) :: rest) p n = (q, b0) :: ddRemove rest p n := by
        simp [ddRemove, hq]
      rw [hred, List.mem_cons] at hx
      cases hx with
      | inl h => exact Or.inl (h ▸ List.mem_cons_self _ _)
      | inr h =>
        cases ih x h with
        | inl h' => exact Or.inl (List.mem_cons_of_mem _ h')
        | inr h' =>
          obtain ⟨b, hb, hx'⟩ := h'
          exact Or.inr ⟨b, hb.imp (List.mem_cons_of_mem _) (fun z => z), hx'⟩

theorem ddRemove_flatten_perm (l : List (Int × List Nat)) (p : Int) (n : Nat)
    (b : List Nat) (hmem : (p, b) ∈ l) (hn : n ∈ b)
    (hnd : (keysOf l).Nodup) :
    (n :: (List.map Prod.snd (ddRemove l p n)).flatten).Perm
      (List.map Prod.snd l).flatten := by
  induction l with
  | nil => cases hmem
  | cons y rest ih =>
    obtain ⟨q, b0⟩ := y
    rw [keysOf, List.map_cons, List.nodup_cons] at hnd
    by_cases hq : q = p
    · subst hq
      have hbb : b = b0 := by
        rw [List.mem_cons] at hmem
        cases hmem with
        | inl h => rw [Prod.mk.injEq] at h; exact h.2
        | inr h => exact absurd (List.mem_map_of_mem Prod.fst h) hnd.1
      subst hbb
      have hred : ddRemove ((q, b) :: rest) q n = (q, removeFirst b n) :: rest := by
        simp [ddRemove]
      rw [hred]
      simp only [List.map_cons, List.flatten_cons]
      exact List.Perm.append_right _ (removeFirst_perm hn).symm
    · have hmem' : (p, b) ∈ rest := by
        rw [List.mem_cons] at hmem
        cases hmem with
        | inl h => rw [Prod.mk.injEq] at h; exact absurd h.1.symm hq
        | inr h => exact h
      have hred : ddRemove ((q, b0) :: rest) p n = (q, b0) :: ddRemove rest p n := by
        simp [ddRemove, hq]
      rw [hred]
      simp only [List.map_cons, List.flatten_cons]
      exact List.Perm.trans List.perm_middle.symm
        (List.Perm.append_left b0 (ih hmem' hnd.2))

theorem bucketAll_mem (t : HabitTracker) (n : Nat) :
    n ∈ bucketAll t ↔ ∃ x ∈ t.habits_by_periodicity, n ∈ x.2 := by
  unfold bucketAll
  rw [List.mem_flatten]
  constructor
  · rintro ⟨b, hb, hn⟩
    rw [List.mem_map] at hb
    obtain ⟨x, hx, rfl⟩ := hb
    exact ⟨x, hx, hn⟩
  · rintro ⟨x, hx, hn⟩
    exact ⟨x.2, List.mem_map_of_mem Prod.snd hx, hn⟩

theorem inv_bucket_of_mapIds (t : HabitTracker) (hInv : TrackerInv t) {n : Nat}
    (hmem : n ∈ mapIds t) :
    ∃ b h, dictFind t.heap n = some h ∧
      (h.periodicity, b) ∈ t.habits_by_periodicity ∧ n ∈ b := by
  have hball := (hInv.memIff n).mpr hmem
  rw [bucketAll_mem] at hball
  obtain ⟨x, hx, hn⟩ := hball
  have hper := hInv.bucketPeriod x hx n hn
  cases hfind : dictFind t.heap n with
  | none => rw [hfind] at hper; cases hper
  | some h =>
    rw [hfind] at hper
    have hpp : h.periodicity = x.1 := by simpa using hper
    refine ⟨x.2, h, rfl, ?_, hn⟩
    rw [hpp]
    exact hx

theorem inv_find_heap (t : HabitTracker) (hInv : TrackerInv t) {n : Nat}
    (hmem : n ∈ mapIds t) : ∃ h, dictFind t.heap n = some h := by
  obtain ⟨b, h, hf, _, _⟩ := inv_bucket_of_mapIds t hInv hmem
  exact ⟨h, hf⟩

theorem inv_mapIds_lt (t : HabitTracker) (hInv : TrackerInv t) :
    ∀ n ∈ mapIds t, n < t.nextId := by
  intro n hn
  obtain ⟨h, hfind⟩ := inv_find_heap t hInv hn
  exact hInv.heapBound n (List.mem_map_of_mem Prod.fst (dictFind_mem hfind))

theorem inv_empty : TrackerInv HabitTracker.empty := by
  constructor <;> simp [HabitTracker.empty, keysOf, mapIds, bucketAll]

theorem inv_add (t : HabitTracker) (hInv : TrackerInv t) (name : String)
    (p : Int) (now : DateTime) (hfresh : dictFind t.habits name = none) :
    TrackerInv (t.add_habit name p now) := by
  have hset : dictSet t.habits name t.nextId = t.habits ++ [(name, t.nextId)] :=
    dictSet_of_fresh _ hfresh
  have hname : name ∉ keysOf t.habits := (dictFind_eq_none_iff _ _).mp hfresh
  have hnid_heap : t.nextId ∉ keysOf t.heap := fun hmem =>
    lt_irrefl _ (hInv.heapBound _ hmem)
  have hnid_map : t.nextId ∉ mapIds t := fun hmem =>
    lt_irrefl _ (inv_mapIds_lt t hInv _ hmem)
  have hfindheap : dictFind t.heap t.nextId = none :=
    (dictFind_eq_none_iff _ _).mpr hnid_heap
  have hmap : mapIds (t.add_habit name p now) = mapIds t ++ [t.nextId] := by
    show List.map Prod.snd (dictSet t.habits name t.nextId) = _
    rw [hset, List.map_append]
    rfl
  have hbperm : (bucketAll (t.add_habit name p now)).Perm
      (t.nextId :: bucketAll t) :=
    ddAppend_flatten_perm t.habits_by_periodicity p t.nextId
  constructor
  · show (keysOf (dictSet t.habits name t.nextId)).Nodup
    rw [hset, keysOf, List.map_append, List.map_cons, List.map_nil, nodup_concat]
    exact ⟨hname, hInv.habitsKeysNodup⟩
  · rw [hmap, nodup_concat]
    exact ⟨hnid_map, hInv.mapIdsNodup⟩
  · show (keysOf (ddAppend t.habits_by_periodicity p t.nextId)).Nodup
    rw [ddAppend_keys]
    by_cases hp : p ∈ keysOf t.habits_by_periodicity
    · rw [if_pos hp]
      exact hInv.bucketKeysNodup
    · rw [if_neg hp, nodup_concat]
      exact ⟨hp, hInv.bucketKeysNodup⟩
  · show (keysOf (t.heap ++ [(t.nextId, Habit.make name p now)])).Nodup
    rw [keysOf, List.map_append, List.map_cons, List.map_nil, nodup_concat]
    exact ⟨hnid_heap, hInv.heapKeysNodup⟩
  · rw [hbperm.nodup_iff, List.nodup_cons]
    exact ⟨fun hmem => hnid_map ((hInv.memIff _).mp hmem), hInv.bucketAllNodup⟩
  · intro n
    rw [hbperm.mem_iff, hmap, List.mem_cons, List.mem_append,
      List.mem_singleton, hInv.memIff n]
    tauto
  · intro x hx n hn
    show (dictFind (t.heap ++ [(t.nextId, Habit.make name p now)]) n).map
      Habit.periodicity = some x.1
    rcases ddAppend_cases t.habits_by_periodicity p t.nextId x hx with
      hold | ⟨b, hb, rfl⟩
    · have hper := hInv.bucketPeriod x hold n hn
      cases hfind : dictFind t.heap n with
      | none => rw [hfind] at hper; cases hper
      | some hh =>
        rw [hfind] at hper
        rw [dictFind_append_some _ hfind]
        exact hper
    · rw [List.mem_append, List.mem_singleton] at hn
      cases hn with
      | inl hnb =>
        cases hb with
        | inl hpb =>
          have hper := hInv.bucketPeriod (p, b) hpb n hnb
          cases hfind : dictFind t.heap n with
          | none => rw [hfind] at hper; cases hper
          | some hh =>
            rw [hfind] at hper
            rw [dictFind_append_some _ hfind]
            exact hper
        | inr hbe => subst hbe; cases hnb
      | inr hnn =>
        subst hnn
        rw [dictFind_append_none _ hfindheap]
        simp [dictFind, Habit.make]
  · intro k hk
    show k < t.nextId + 1
    have hk' : k ∈ keysOf (t.heap ++ [(t.nextId, Habit.make name p now)]) := hk
    rw [keysOf, List.map_append, List.map_cons, List.map_nil,
      List.mem_append, List.mem_singleton] at hk'
    cases hk' with
    | inl h => exact Nat.lt_trans (hInv.heapBound k h) (Nat.lt_succ_self _)
    | inr h => exact h ▸ Nat.lt_succ_self _

theorem inv_delete (t : HabitTracker) (hInv : TrackerInv t) (name : String) :
    TrackerInv (t.delete_habit name) := by
  unfold HabitTracker.delete_habit
  cases hfind : dictFind t.habits name with
  | none => exact hInv
  | some n =>
    have hnmap : n ∈ mapIds t := List.mem_map_of_mem Prod.snd (dictFind_mem hfind)
    obtain ⟨b, h, hfh, hbmem, hnb⟩ := inv_bucket_of_mapIds t hInv hnmap
    show TrackerInv
      (match dictFind t.heap n with
       | none => t
       | some h =>
         { nextId := t.nextId, heap := t.heap,
           habits := dictDrop t.habits name,
           habits_by_periodicity :=
             ddRemove t.habits_by_periodicity h.periodicity n })
    rw [hfh]
    obtain ⟨l1, l2, heqh, hk1, hdrop⟩ := dictDrop_split hfind
    have hmapperm : (mapIds t).Perm
        (n :: List.map Prod.snd (dictDrop t.habits name)) := by
      rw [hdrop, List.map_append]
      have hEq : mapIds t =
          List.map Prod.snd l1 ++ Prod.snd (name, n) :: List.map Prod.snd l2 := by
        rw [show mapIds t = List.map Prod.snd t.habits from rfl, heqh,
          List.map_append, List.map_cons]
      rw [hEq]
      exact List.perm_middle
    have hbperm : (n :: (List.map Prod.snd
        (ddRemove t.habits_by_periodicity h.periodicity n)).flatten).Perm
        (bucketAll t) :=
      ddRemove_flatten_perm _ _ _ b hbmem hnb hInv.bucketKeysNodup
    have hpkey : h.periodicity ∈ keysOf t.habits_by_periodicity :=
      List.mem_map_of_mem Prod.fst hbmem
    constructor
    · show (keysOf (dictDrop t.habits name)).Nodup
      rw [hdrop, keysOf, List.map_append]
      have hnd := hInv.habitsKeysNodup
      rw [keysOf, heqh, List.map_append, List.map_cons] at hnd
      exact List.Nodup.sublist
        (List.Sublist.append_left (List.sublist_cons_self _ _) _) hnd
    · exact (List.nodup_cons.mp
        ((hmapperm.nodup_iff).mp hInv.mapIdsNodup)).2
    · show (keysOf (ddRemove t.habits_by_periodicity h.periodicity n)).Nodup
      rw [ddRemove_keys, if_pos hpkey]
      exact hInv.bucketKeysNodup
    · exact hInv.heapKeysNodup
    · exact (List.nodup_cons.mp
        (hbperm.nodup_iff.mpr hInv.bucketAllNodup)).2
    · intro m
      have hnodupb := hbperm.nodup_iff.mpr hInv.bucketAllNodup
      have hnodupm := (hmapperm.nodup_iff).mp hInv.mapIdsNodup
      obtain ⟨hnB, _⟩ := List.nodup_cons.mp hnodupb
      obtain ⟨hnM, _⟩ := List.nodup_cons.mp hnodupm
      constructor
      · intro hm
        have hmB : m ∈ bucketAll t :=
          hbperm.mem_iff.mp (List.mem_cons_of_mem n hm)
        have hmM := (hInv.memIff m).mp hmB
        have hmem' := hmapperm.mem_iff.mp hmM
        rw [List.mem_cons] at hmem'
        cases hmem' with
        | inl heq => exact absurd (heq ▸ hm) hnB
        | inr hx => exact hx
      · intro hm
        have hmM : m ∈ mapIds t :=
          hmapperm.mem_iff.mpr (List.mem_cons_of_mem n hm)
        have hmB := (hInv.memIff m).mpr hmM
        have hmem' := hbperm.mem_iff.mpr hmB
        rw [List.mem_cons] at hmem'
        cases hmem' with
        | inl heq => exact absurd (heq ▸ hm) hnM
        | inr hx => exact hx
    · intro x hx m hm
      show (dictFind t.heap m).map Habit.periodicity = some x.1
      rcases ddRemove_cases t.habits_by_periodicity h.periodicity n x hx with
        hold | ⟨b0, hb0, rfl⟩
      · exact hInv.bucketPeriod x hold m hm
      · cases hb0 with
        | inl hpb =>
          exact hInv.bucketPeriod (h.periodicity, b0) hpb m
            (removeFirst_subset b0 n m hm)
        | inr hbe =>
          subst hbe
          simp [removeFirst] at hm
    · exact hInv.heapBound

theorem inv_check (t : HabitTracker) (hInv : TrackerInv t) (name : String)
    (today : Int) (now : DateTime) :
    TrackerInv (t.checkoff_habit name today now) := by
  unfold HabitTracker.checkoff_habit
  cases hfind : dictFind t.habits name with
  | none => exact hInv
  | some n =>
    constructor
    · exact hInv.habitsKeysNodup
    · exact hInv.mapIdsNodup
    · exact hInv.bucketKeysNodup
    · show (keysOf (dictModify t.heap n (Habit.checkoff · today now))).Nodup
      rw [dictModify_keys]
      exact hInv.heapKeysNodup
    · exact hInv.bucketAllNodup
    · exact hInv.memIff
    · intro x hx m hm
      have hper := hInv.bucketPeriod x hx m hm
      show (dictFind (dictModify t.heap n (Habit.checkoff · today now)) m).map
        Habit.periodicity = some x.1
      by_cases hmn : m = n
      · subst hmn
        rw [dictFind_dictModify_self]
        cases hfh : dictFind t.heap m with
        | none => rw [hfh] at hper; cases hper
        | some hh =>
          rw [hfh] at hper
          exact hper
      · rw [dictFind_dictModify_ne _ _ _ _ hmn]
        exact hper
    · intro k hk
      have hk' : k ∈ keysOf (dictModify t.heap n (Habit.checkoff · today now)) := hk
      rw [dictModify_keys] at hk'
      exact hInv.heapBound k hk'

theorem inv_runOps (ops : List Op) :
    ∀ t, TrackerInv t → freshRun t ops = true → TrackerInv (runOps t ops) := by
  induction ops with
  | nil => intro t h _; exact h
  | cons op ops ih =>
    intro t hInv hfr
    rw [freshRun, Bool.and_eq_true] at hfr
    obtain ⟨hop, hrest⟩ := hfr
    refine ih (applyOp t op) ?_ hrest
    cases op with
    | add name p now =>
      have hfresh : dictFind t.habits name = none := by
        rwa [freshOp, Option.isNone_iff_eq_none] at hop
      exact inv_add t hInv name p now hfresh
    | del name => exact inv_delete t hInv name
    | check name today now => exact inv_check t hInv name today now

/-- C2 counterexample: after adding the same name twice, the first object
(id 0) is still in the periodicity-1 bucket but no longer in the name map —
a silent overwrite orphans the old Habit, so the bucket union does not
equal the name-map contents on all reachable states. -/
theorem tracker_inv_cex :
    0 ∈ bucketAll (runOps HabitTracker.empty opsDup) ∧
    0 ∉ mapIds (runOps HabitTracker.empty opsDup) := by decide

/-- C2 (amended): over every operation sequence from the empty tracker in
which each `add_habit` uses a name not currently bound (deletes and
checkoffs unrestricted), the union of the periodicity buckets has no
duplicates and contains exactly the Habit objects bound in the name map. -/
theorem tracker_inv (ops : List Op)
    (hfresh : freshRun HabitTracker.empty ops = true) :
    (bucketAll (runOps HabitTracker.empty ops)).Nodup ∧
    ∀ n, n ∈ bucketAll (runOps HabitTracker.empty ops) ↔
      n ∈ mapIds (runOps HabitTracker.empty ops) := by
  have hI := inv_runOps ops HabitTracker.empty inv_empty hfresh
  exact ⟨hI.bucketAllNodup, hI.memIff⟩

/-- Witness for C2 (amended) on a concrete add/check/delete/re-add run. -/
theorem tracker_inv_witness :
    freshRun HabitTracker.empty opsW = true ∧
    (bucketAll (runOps HabitTracker.empty opsW)).Nodup ∧
    (1 ∈ bucketAll (runOps HabitTracker.empty opsW) ↔
      1 ∈ mapIds (runOps HabitTracker.empty opsW)) :=
  ⟨by decide, (tracker_inv opsW (by decide)).1,
    (tracker_inv opsW (by decide)).2 1⟩

/-- C8: `checkoff_habit` on an unbound name changes nothing (it only
prints); on a bound name it delegates to that object's `checkoff`,
rewriting exactly that object in the store. -/
theorem checkoff_habit_spec (t : HabitTracker) (name : String) (today : Int)
    (now : DateTime) :
    (dictFind t.habits name = none → t.checkoff_habit name today now = t) ∧
    (∀ n, dictFind t.habits name = some n →
      t.checkoff_habit name today now =
        { t with heap := dictModify t.heap n (Habit.checkoff · today now) }) := by
  constructor
  · intro h
    unfold HabitTracker.checkoff_habit
    rw [h]
  · intro n h
    unfold HabitTracker.checkoff_habit
    rw [h]

/-- Witness for C8: checking off an unknown name on the empty tracker is a
no-op. -/
theorem checkoff_habit_spec_witness :
    HabitTracker.empty.checkoff_habit nmA 0 t0 = HabitTracker.empty :=
  (checkoff_habit_spec HabitTracker.empty nmA 0 t0).1 rfl

/-- C9: under the tracker invariant, `get_habits_by_periodicity p` returns
(without raising) exactly the bound habits whose periodicity is `p`, and an
empty sequence when no bound habit has periodicity `p` — including values
that were never inserted. -/
theorem get_by_periodicity_spec (t : HabitTracker) (hInv : TrackerInv t)
    (p : Int) :
    (∀ n, n ∈ (t.get_habits_by_periodicity p).1 ↔
      n ∈ mapIds t ∧ (dictFind t.heap n).map Habit.periodicity = some p) ∧
    ((∀ n ∈ mapIds t, (dictFind t.heap n).map Habit.periodicity ≠ some p) →
      (t.get_habits_by_periodicity p).1 = []) := by
  have hmain : ∀ n, n ∈ (t.get_habits_by_periodicity p).1 ↔
      n ∈ mapIds t ∧ (dictFind t.heap n).map Habit.periodicity = some p := by
    intro n
    cases hfind : dictFind t.habits_by_periodicity p with
    | none =>
      have h1 : (t.get_habits_by_periodicity p).1 = [] := by
        unfold HabitTracker.get_habits_by_periodicity
        rw [hfind]
      rw [h1]
      simp only [List.not_mem_nil, false_iff]
      rintro ⟨hmap, hper⟩
      obtain ⟨b, h, hfh, hbmem, hnb⟩ := inv_bucket_of_mapIds t hInv hmap
      rw [hfh] at hper
      have hpp : h.periodicity = p := by simpa using hper
      rw [hpp] at hbmem
      exact absurd (List.mem_map_of_mem Prod.fst hbmem)
        ((dictFind_eq_none_iff _ _).mp hfind)
    | some b =>
      have h1 : (t.get_habits_by_periodicity p).1 = b := by
        unfold HabitTracker.get_habits_by_periodicity
        rw [hfind]
      rw [h1]
      constructor
      · intro hnb
        have hbmem : (p, b) ∈ t.habits_by_periodicity := dictFind_mem hfind
        refine ⟨(hInv.memIff n).mp ((bucketAll_mem t n).mpr ⟨(p, b), hbmem, hnb⟩),
          hInv.bucketPeriod (p, b) hbmem n hnb⟩
      · rintro ⟨hmap, hper⟩
        obtain ⟨b', h, hfh, hbmem', hnb'⟩ := inv_bucket_of_mapIds t hInv hmap
        rw [hfh] at hper
        have hpp : h.periodicity = p := by simpa using hper
        rw [hpp] at hbmem'
        have hfind' := dictFind_of_nodup hInv.bucketKeysNodup hbmem'
        rw [hfind] at hfind'
        have hbb : b = b' := by
          injection hfind'
        rw [hbb]
        exact hnb'
  refine ⟨hmain, ?_⟩
  intro hnone
  rw [List.eq_nil_iff_forall_not_mem]
  intro n hn
  obtain ⟨hmap, hper⟩ := (hmain n).mp hn
  exact hnone n hmap hper

/-- Witness for C9: periodicity 99 on the empty tracker yields an empty
sequence, not an error. -/
theorem get_by_periodicity_spec_witness :
    (HabitTracker.empty.get_habits_by_periodicity 99).1 = [] :=
  (get_by_periodicity_spec HabitTracker.empty inv_empty 99).2 (by decide)

/-- C10: a `get_habits_by_periodicity` read of an absent periodicity is
not pure — it appends a fresh empty bucket under that key (defaultdict
behaviour), leaving the name map, the store, the allocation counter, and
every existing bucket unchanged. -/
theorem get_by_periodicity_mutates (t : HabitTracker) (p : Int)
    (habsent : dictFind t.habits_by_periodicity p = none) :
    keysOf (t.get_habits_by_periodicity p).2.habits_by_periodicity =
      keysOf t.habits_by_periodicity ++ [p] ∧
    (t.get_habits_by_periodicity p).2.habits = t.habits ∧
    (t.get_habits_by_periodicity p).2.heap = t.heap ∧
    (t.get_habits_by_periodicity p).2.nextId = t.nextId ∧
    (∀ q b, dictFind t.habits_by_periodicity q = some b →
      dictFind (t.get_habits_by_periodicity p).2.habits_by_periodicity q =
        some b) := by
  have h2 : (t.get_habits_by_periodicity p).2 =
      { t with habits_by_periodicity := t.habits_by_periodicity ++ [(p, [])] } := by
    unfold HabitTracker.get_habits_by_periodicity
    rw [habsent]
  rw [h2]
  refine ⟨?_, rfl, rfl, rfl, ?_⟩
  · show keysOf (t.habits_by_periodicity ++ [(p, [])]) = _
    rw [keysOf, List.map_append]
    rfl
  · intro q b hq
    exact dictFind_append_some _ hq

/-- Witness for C10: reading periodicity 2 on a tracker holding only a
periodicity-1 bucket appends the key 2. -/
theorem get_by_periodicity_mutates_witness :
    keysOf (tA.get_habits_by_periodicity 2).2.habits_by_periodicity =
      keysOf tA.habits_by_periodicity ++ [2] :=
  (get_by_periodicity_mutates tA 2 (by decide)).1

theorem foldl_append_filter (f : Habit → Bool) (l : List Habit) :
    ∀ acc, l.foldl (fun acc h => if f h then acc ++ [h.name] else acc) acc =
      acc ++ (l.filter f).map Habit.name := by
  induction l with
  | nil => intro acc; simp
  | cons h l ih =>
    intro acc
    by_cases hf : f h
    · simp only [List.foldl_cons, if_pos hf, ih, List.filter_cons, hf,
        if_true, List.map_cons, List.append_assoc, List.singleton_append]
    · simp only [List.foldl_cons, if_neg hf, ih, List.filter_cons, hf,
        Bool.false_eq_true, if_false]

theorem struggledB_iff (today : Int) (h : Habit) :
    struggledB today h = true ↔
      (h.checkoffs = [] ∨
        ∃ c, h.checkoffs.getLast? = some c ∧ c.date < today - 30) := by
  unfold struggledB
  cases hc : h.checkoffs.getLast? with
  | none =>
    have hnil : h.checkoffs = [] := List.getLast?_eq_none_iff.mp hc
    simp [hnil]
  | some c =>
    have hne : h.checkoffs ≠ [] := by
      intro hnil
      rw [hnil] at hc
      cases hc
    simp [hc, List.isEmpty_iff, hne]

/-- C7: `habits_struggled_last_month` returns exactly the names of habits
with no checkoffs at all or whose final checkoff's calendar date is
strictly earlier than `today - 30`; a habit whose last checkoff is exactly
30 days old is not struggling, one 31 days old is. -/
theorem struggled_spec (t : HabitTracker) (today : Int) :
    (∀ n, n ∈ t.habits_struggled_last_month today ↔
      ∃ h ∈ t.habitsValues, h.name = n ∧
        (h.checkoffs = [] ∨
          ∃ c, h.checkoffs.getLast? = some c ∧ c.date < today - 30)) ∧
    (∀ h : Habit, ∀ c, h.checkoffs.getLast? = some c → c.date = today - 30 →
      struggledB today h = false) ∧
    (∀ h : Habit, ∀ c, h.checkoffs.getLast? = some c → c.date = today - 31 →
      struggledB today h = true) := by
  refine ⟨?_, ?_, ?_⟩
  · intro n
    unfold HabitTracker.habits_struggled_last_month
    rw [foldl_append_filter, List.nil_append, List.mem_map]
    constructor
    · rintro ⟨h, hmem, hname⟩
      rw [List.mem_filter] at hmem
      exact ⟨h, hmem.1, hname, (struggledB_iff today h).mp hmem.2⟩
    · rintro ⟨h, hmem, hname, hcond⟩
      exact ⟨h, List.mem_filter.mpr ⟨hmem, (struggledB_iff today h).mpr hcond⟩,
        hname⟩
  · intro h c hc hdate
    rw [← Bool.not_eq_true, struggledB_iff]
    rintro (hnil | ⟨c', hc', hlt⟩)
    · rw [hnil] at hc
      cases hc
    · rw [hc] at hc'
      have hcc : c = c' := by injection hc'
      rw [← hcc, hdate] at hlt
      exact lt_irrefl _ hlt
  · intro h c hc hdate
    rw [struggledB_iff]
    refine Or.inr ⟨c, hc, ?_⟩
    rw [hdate]
    omega

/-- Witness for C7's boundary facts at a concrete habit whose last
checkoff is day 0: struggling relative to day 31, not relative to day 30. -/
theorem struggled_spec_witness :
    struggledB 30 hC3 = false ∧ struggledB 31 hC3 = true :=
  ⟨(struggled_spec HabitTracker.empty 30).2.1 hC3 t0 (by decide) (by decide),
   (struggled_spec HabitTracker.empty 31).2.2 hC3 t0 (by decide) (by decide)⟩
